import Mathlib

/-!
# Verification of `bundle-generation/generate-sha-commits.py`

A shallow embedding of the sha-reconciliation script. YAML/JSON records
(Python dicts) are modelled as insertion-ordered association lists over a
small value type `JVal` (strings and `None`); the on-disk configuration
document is threaded explicitly through the run, since `update_yaml_field`
re-reads the file before every patch while `main` keeps iterating over the
component list it loaded once at start.
-/

set_option maxRecDepth 4000

/-- A YAML/JSON scalar as used by the script: a string or Python `None`
(missing keys read back as `None` through `dict.get`). -/
inductive JVal where
  | null : JVal
  | str : String → JVal
  deriving DecidableEq, Repr

/-- A record (Python dict) as an insertion-ordered association list. -/
abbrev Rec := List (String × JVal)

/-- Lookup of a key in a record, `none` when the key is absent
(Python `k in d` / `d[k]`). -/
def lookupK (k : String) : Rec → Option JVal
  | [] => none
  | (k', v) :: rest => if k' = k then some v else lookupK k rest

/-- Python `d.get(k)`: the stored value, or `None` when the key is absent. -/
def pyGet (r : Rec) (k : String) : JVal := (lookupK k r).getD JVal.null

/-- Python `k in d` on a dict. -/
def hasKey (r : Rec) (k : String) : Bool := (lookupK k r).isSome

/-- Python `d[k] = v` on a dict: overwrite the value at an existing key in
place, or append the binding when the key is absent. -/
def dictSet : Rec → String → JVal → Rec
  | [], k, v => [(k, v)]
  | (k', v') :: rest, k, v =>
    if k' = k then (k, v) :: rest else (k', v') :: dictSet rest k v

/-- The guard of the loop body in `update_yaml_field` (line 49):
`"repo_name" in entry and entry["repo_name"] == repo_name and "sha" in entry`. -/
def patchable (n : JVal) (r : Rec) : Bool :=
  (lookupK "repo_name" r == some n) && hasKey r "sha"

/-- The loop of `update_yaml_field` (lines 48-52) over a bare list document:
set `entry["sha"] = new_sha` on the first record passing the guard, then
`break`; records before it (and all records when none passes) are untouched. -/
def updateRecords (n v : JVal) : List Rec → List Rec
  | [] => []
  | r :: rest =>
    if patchable n r then dictSet r "sha" v :: rest
    else r :: updateRecords n v rest

/-- The comparison on line 184 of `main`:
`entry.get("image-name") == repo.get("repo_name") and entry.get("git-sha256") != repo.get("sha")`. -/
def entryCond (c e : Rec) : Bool :=
  (pyGet e "image-name" == pyGet c "repo_name") &&
    !(pyGet e "git-sha256" == pyGet c "sha")

/-- The inner manifest loop of `main` (lines 183-188) for a bare-list
configuration: on the first entry passing `entryCond` call
`update_yaml_field(config_yaml, repo.get("repo_name"), entry.get("git-sha256"))`
and `break`; otherwise leave the on-disk document alone. -/
def manifestLoopB (c : Rec) (d : List Rec) : List Rec → List Rec
  | [] => d
  | e :: rest =>
    if entryCond c e then updateRecords (pyGet c "repo_name") (pyGet e "git-sha256") d
    else manifestLoopB c d rest

/-- One iteration of the outer component loop of `main` (lines 177-188) for a
bare-list configuration: the guard on line 178 is
`if "sha" in repo and "repo_name" in repo`. -/
def processCompB (m : List Rec) (d : List Rec) (c : Rec) : List Rec :=
  if hasKey c "sha" && hasKey c "repo_name" then manifestLoopB c d m else d

/-- The outer loop of `main` over a component list `cs`, threading the on-disk
document `d` (each `update_yaml_field` call re-reads the current file). -/
def runFrom (m : List Rec) (d : List Rec) : List Rec → List Rec
  | [] => d
  | c :: cs => runFrom m (processCompB m d c) cs

/-- One full reconciliation pass of `main` over a bare-list configuration
document: the component list is the document as loaded once at run start
(line 139), while the on-disk state starts equal to it and is threaded
through the updates. -/
def runPassB (d : List Rec) (m : List Rec) : List Rec :=
  runFrom m d d

/-- The first list of characters leads the second one. -/
def charsLeadWith : List Char → List Char → Bool
  | [], _ => true
  | _ :: _, [] => false
  | a :: as, b :: bs => a == b && charsLeadWith as bs

/-- The first list of characters occurs contiguously inside the second. -/
def charsContain : List Char → List Char → Bool
  | sub, [] => sub.isEmpty
  | sub, c :: rest => charsLeadWith sub (c :: rest) || charsContain sub rest

/-- Python `sub in s` on strings (substring containment). -/
def pyIn (sub s : String) : Bool := charsContain sub.data s.data

/-- The loop of `update_yaml_field` when the loaded document is a wrapper
dict: `for entry in yaml_data` iterates over the top-level KEYS (strings).
On a string entry, `"repo_name" in entry` is a substring test, and when it
holds the subsequent `entry["repo_name"]` raises `TypeError` (string indices
must be integers), modelled as `none`; otherwise the loop finishes without
touching anything. -/
def updateWrapperKeys : List String → Option Unit
  | [] => some ()
  | s :: rest => if pyIn "repo_name" s then none else updateWrapperKeys rest

/-- A configuration document: either a bare list of records, or a wrapper
dict abstracted to its insertion-ordered top-level keys together with the
record list stored under its `components` key ( `[]` when absent). -/
inductive ConfigDoc where
  | bare : List Rec → ConfigDoc
  | wrapper : List String → List Rec → ConfigDoc
  deriving DecidableEq, Repr

/-- `update_yaml_field` (lines 36-54) on a whole document: re-read the file,
run the update loop on the raw loaded value, save. `none` models an
uncaught exception (the `TypeError` path on wrapper documents); on the
no-exception paths the document is saved, changed at one record at most. -/
def update_yaml_field : ConfigDoc → JVal → JVal → Option ConfigDoc
  | .bare l, n, v => some (.bare (updateRecords n v l))
  | .wrapper ks comps, _, _ => (updateWrapperKeys ks).map fun _ => .wrapper ks comps

/-- The normalization in `main` (lines 168-171):
`components = config.get("components", [])` for a dict, the list itself
otherwise. -/
def componentsOf : ConfigDoc → List Rec
  | .bare l => l
  | .wrapper _ comps => comps

/-- The inner manifest loop of `main` (lines 183-188) at document level. -/
def manifestLoopD (c : Rec) (doc : ConfigDoc) : List Rec → Option ConfigDoc
  | [] => some doc
  | e :: rest =>
    if entryCond c e then update_yaml_field doc (pyGet c "repo_name") (pyGet e "git-sha256")
    else manifestLoopD c doc rest

/-- One iteration of the outer component loop of `main` at document level. -/
def processCompD (m : List Rec) (doc : ConfigDoc) (c : Rec) : Option ConfigDoc :=
  if hasKey c "sha" && hasKey c "repo_name" then manifestLoopD c doc m else some doc

/-- The outer component loop of `main` at document level, propagating an
uncaught exception. -/
def runComps (m : List Rec) : ConfigDoc → List Rec → Option ConfigDoc
  | doc, [] => some doc
  | doc, c :: cs =>
    match processCompD m doc c with
    | some doc' => runComps m doc' cs
    | none => none

/-- One full reconciliation pass of `main` (lines 139, 168-191): load the
document once, normalize it to a component list, and run the outer loop,
threading the on-disk document through the patches. -/
def runPass (doc : ConfigDoc) (m : List Rec) : Option ConfigDoc :=
  runComps m doc (componentsOf doc)

/-- `glob.glob` for a pattern containing no wildcard characters, over an
abstract file system given as the list of existing paths: the singleton of
the pattern when that exact path exists, the empty list otherwise (also when
the enclosing directory does not exist). -/
def globLiteral (fs : List String) (pat : String) : List String :=
  if fs.contains pat then [pat] else []

/-- `fetch_latest_manifest` (lines 78-90):
`manifest = glob.glob(os.path.join(dir_path, "manifest.json"))`, then
`manifest[-1] if manifest else None`. -/
def fetch_latest_manifest (fs : List String) (dir_path : String) : Option String :=
  let manifest := globLiteral fs (dir_path ++ "/manifest.json")
  manifest.getLast?

/-- Lines 157-161 of `main`: fetch the manifest path and exit with code 1
when `fetch_latest_manifest` returned `None`. -/
def mainFetchStage (fs : List String) (snapshots_path : String) : Except Nat String :=
  match fetch_latest_manifest fs snapshots_path with
  | none => Except.error 1
  | some p => Except.ok p

/-- The staleness decision for one component, as a function of the component
and the manifest only: `none` when the component is skipped or no manifest
entry passes `entryCond`, otherwise the `(repo_name, git-sha256)` pair passed
to `update_yaml_field` for the first passing entry. -/
def decideOne (m : List Rec) (c : Rec) : Option (JVal × JVal) :=
  if hasKey c "sha" && hasKey c "repo_name" then
    (m.find? (entryCond c)).map fun e => (pyGet c "repo_name", pyGet e "git-sha256")
  else none

/-- Apply one staleness decision to the on-disk bare document. -/
def applyDecision (d : List Rec) : Option (JVal × JVal) → List Rec
  | some (n, v) => updateRecords n v d
  | none => d

/-- Apply one staleness decision to a single record in place. -/
def applyDecision1 (r : Rec) : Option (JVal × JVal) → Rec
  | some (_, v) => dictSet r "sha" v
  | none => r

/-- The decisions of a whole pass, computed from the initially loaded
component list and the manifest alone. -/
def decisionsOf (d m : List Rec) : List (Option (JVal × JVal)) :=
  d.map (decideOne m)

/-- Fold a precomputed decision list over the on-disk document. -/
def applyDecisions (d : List Rec) : List (Option (JVal × JVal)) → List Rec
  | [] => d
  | dec :: rest => applyDecisions (applyDecision d dec) rest

/-- `updateRecords n h` is a no-op on `l`: the first patchable record for
`n` (if any) already stores sha `h`. -/
def stableFor (n h : JVal) : List Rec → Bool
  | [] => true
  | r :: rest =>
    if patchable n r then lookupK "sha" r == some h else stableFor n h rest

/-- Modelled from the spec claim, for comparison with `processCompB`: the
per-component skip happens only when the record lacks BOTH `repo_name` and
`sha`; a record carrying at least one of the two is still evaluated against
the manifest. -/
def processCompClaimed (m : List Rec) (d : List Rec) (c : Rec) : List Rec :=
  if !hasKey c "sha" && !hasKey c "repo_name" then d else manifestLoopB c d m

/-! ## Basic laws of `dictSet` and `lookupK` -/

theorem lookupK_dictSet_self (r : Rec) (k : String) (v : JVal) :
    lookupK k (dictSet r k v) = some v := by
  induction r with
  | nil => simp [dictSet, lookupK]
  | cons kv rest ih =>
    obtain ⟨k', v'⟩ := kv
    by_cases h : k' = k
    · simp [dictSet, lookupK, h]
    · simp [dictSet, lookupK, h, ih]

theorem lookupK_dictSet_ne (r : Rec) (k k' : String) (v : JVal) (h : k' ≠ k) :
    lookupK k' (dictSet r k v) = lookupK k' r := by
  have hkk : ¬k = k' := fun hh => h hh.symm
  induction r with
  | nil => simp [dictSet, lookupK, hkk]
  | cons kv rest ih =>
    obtain ⟨k'', v''⟩ := kv
    by_cases hk : k'' = k
    · subst hk
      simp [dictSet, lookupK, hkk]
    · by_cases hk' : k'' = k'
      · subst hk'
        simp [dictSet, lookupK, hk]
      · simp [dictSet, lookupK, hk, hk', ih]

theorem dictSet_of_lookupK_eq (r : Rec) (k : String) (v : JVal)
    (h : lookupK k r = some v) : dictSet r k v = r := by
  induction r with
  | nil => simp [lookupK] at h
  | cons kv rest ih =>
    obtain ⟨k', v'⟩ := kv
    by_cases hk : k' = k
    · subst hk
      simp [lookupK] at h
      simp [dictSet, h]
    · simp [lookupK, hk] at h
      simp [dictSet, hk, ih h]

theorem lookupK_of_dictSet_eq (r : Rec) (k : String) (v : JVal)
    (h : dictSet r k v = r) : lookupK k r = some v := by
  induction r with
  | nil => simp [dictSet] at h
  | cons kv rest ih =>
    obtain ⟨k', v'⟩ := kv
    by_cases hk : k' = k
    · subst hk
      simp [dictSet] at h
      simp [lookupK, h]
    · simp [dictSet, hk] at h
      simp [lookupK, hk, ih h]

theorem dictSet_keys_of_hasKey (r : Rec) (k : String) (v : JVal)
    (h : hasKey r k = true) : (dictSet r k v).map Prod.fst = r.map Prod.fst := by
  induction r with
  | nil => simp [hasKey, lookupK] at h
  | cons kv rest ih =>
    obtain ⟨k', v'⟩ := kv
    by_cases hk : k' = k
    · simp [dictSet, hk]
    · simp [hasKey, lookupK, hk] at h
      simp [dictSet, hk, ih h]

theorem hasKey_dictSet_sha (r : Rec) (v : JVal) :
    hasKey (dictSet r "sha" v) "sha" = true := by
  simp [hasKey, lookupK_dictSet_self]

theorem patchable_dictSet_sha (n : JVal) (r : Rec) (v : JVal)
    (h : hasKey r "sha" = true) :
    patchable n (dictSet r "sha" v) = patchable n r := by
  have hrn : ("repo_name" : String) ≠ "sha" := by decide
  have h' : (lookupK "sha" r).isSome = true := h
  simp [patchable, hasKey, lookupK_dictSet_ne r "sha" "repo_name" v hrn,
    lookupK_dictSet_self, h']

theorem patchable_hasKey_sha (n : JVal) (r : Rec) (h : patchable n r = true) :
    hasKey r "sha" = true := by
  simp [patchable] at h
  exact h.2

theorem patchable_lookupK_repo (n : JVal) (r : Rec) (h : patchable n r = true) :
    lookupK "repo_name" r = some n := by
  simp [patchable] at h
  exact h.1

/-! ## Characterization of the `update_yaml_field` loop -/

theorem updateRecords_split (n v : JVal) (l : List Rec) :
    (updateRecords n v l = l ∧ ∀ r ∈ l, patchable n r = false) ∨
      ∃ pre r post, l = pre ++ r :: post ∧
        (∀ r' ∈ pre, patchable n r' = false) ∧ patchable n r = true ∧
        updateRecords n v l = pre ++ dictSet r "sha" v :: post := by
  induction l with
  | nil => exact Or.inl ⟨rfl, by simp⟩
  | cons r rest ih =>
    by_cases hp : patchable n r = true
    · exact Or.inr ⟨[], r, rest, by simp, by simp, hp, by simp [updateRecords, hp]⟩
    · have hp' : patchable n r = false := by
        cases hpp : patchable n r
        · rfl
        · exact absurd hpp hp
      rcases ih with ⟨heq, hall⟩ | ⟨pre, r', post, hsplit, hpre, hpr, hupd⟩
      · refine Or.inl ⟨?_, ?_⟩
        · simp [updateRecords, hp', heq]
        · intro x hx
          rcases List.mem_cons.mp hx with hx | hx
          · exact hx ▸ hp'
          · exact hall x hx
      · refine Or.inr ⟨r :: pre, r', post, by simp [hsplit], ?_, hpr, ?_⟩
        · intro x hx
          rcases List.mem_cons.mp hx with hx | hx
          · exact hx ▸ hp'
          · exact hpre x hx
        · simp [updateRecords, hp', hupd]

theorem updateRecords_of_no_patchable (n v : JVal) (l : List Rec)
    (h : ∀ r ∈ l, patchable n r = false) : updateRecords n v l = l := by
  induction l with
  | nil => rfl
  | cons r rest ih =>
    have hr := h r (List.mem_cons_self r rest)
    simp [updateRecords, hr, ih fun x hx => h x (List.mem_cons_of_mem r hx)]

theorem updateRecords_append_of_no_patchable (n v : JVal) (l1 l2 : List Rec)
    (h : ∀ r ∈ l1, patchable n r = false) :
    updateRecords n v (l1 ++ l2) = l1 ++ updateRecords n v l2 := by
  induction l1 with
  | nil => rfl
  | cons r rest ih =>
    have hr := h r (List.mem_cons_self r rest)
    simp [updateRecords, hr, ih fun x hx => h x (List.mem_cons_of_mem r hx)]

theorem mem_updateRecords (n v : JVal) (l : List Rec) (x : Rec)
    (hx : x ∈ updateRecords n v l) :
    x ∈ l ∨ ∃ r, r ∈ l ∧ patchable n r = true ∧ x = dictSet r "sha" v := by
  induction l with
  | nil => simp [updateRecords] at hx
  | cons r rest ih =>
    by_cases hp : patchable n r = true
    · simp [updateRecords, hp] at hx
      rcases hx with hx | hx
      · exact Or.inr ⟨r, List.mem_cons_self r rest, hp, hx⟩
      · exact Or.inl (List.mem_cons_of_mem r hx)
    · simp [updateRecords, hp] at hx
      rcases hx with hx | hx
      · exact Or.inl (hx ▸ List.mem_cons_self r rest)
      · rcases ih hx with h | ⟨r', hr', hpr', hxr'⟩
        · exact Or.inl (List.mem_cons_of_mem r h)
        · exact Or.inr ⟨r', List.mem_cons_of_mem r hr', hpr', hxr'⟩

/-! ## The per-component decision as a function of component and manifest -/

theorem manifestLoopB_eq_find (c : Rec) (d : List Rec) (m : List Rec) :
    manifestLoopB c d m =
      applyDecision d
        ((m.find? (entryCond c)).map fun e => (pyGet c "repo_name", pyGet e "git-sha256")) := by
  induction m with
  | nil => simp [manifestLoopB, applyDecision]
  | cons e rest ih =>
    by_cases he : entryCond c e = true
    · simp [manifestLoopB, he, List.find?, applyDecision]
    · have he' : entryCond c e = false := by
        cases hh : entryCond c e
        · rfl
        · exact absurd hh he
      simp [manifestLoopB, he', List.find?, ih]

theorem processCompB_eq_applyDecision (m : List Rec) (d : List Rec) (c : Rec) :
    processCompB m d c = applyDecision d (decideOne m c) := by
  by_cases hg : (hasKey c "sha" && hasKey c "repo_name") = true
  · simp [processCompB, decideOne, hg, manifestLoopB_eq_find]
  · simp [processCompB, decideOne, hg, applyDecision]

theorem runFrom_eq_applyDecisions (m : List Rec) (cs : List Rec) (d : List Rec) :
    runFrom m d cs = applyDecisions d (cs.map (decideOne m)) := by
  induction cs generalizing d with
  | nil => rfl
  | cons c cs ih =>
    simp [runFrom, applyDecisions, processCompB_eq_applyDecision, ih]

theorem decideOne_some (m : List Rec) (c : Rec) (n h : JVal)
    (hd : decideOne m c = some (n, h)) :
    hasKey c "sha" = true ∧ hasKey c "repo_name" = true ∧
      n = pyGet c "repo_name" ∧
      ∃ e, e ∈ m ∧ entryCond c e = true ∧ h = pyGet e "git-sha256" ∧
        pyGet e "image-name" = pyGet c "repo_name" ∧ h ≠ pyGet c "sha" := by
  by_cases hg : (hasKey c "sha" && hasKey c "repo_name") = true
  · simp only [decideOne, hg, if_true] at hd
    rcases hfind : m.find? (entryCond c) with _ | e
    · rw [hfind] at hd
      simp at hd
    · rw [hfind] at hd
      simp only [Option.map_some', Option.some.injEq, Prod.mk.injEq] at hd
      have hmem := List.mem_of_find?_eq_some hfind
      have hcond := List.find?_some hfind
      have hcond' := hcond
      simp only [entryCond, Bool.and_eq_true, beq_iff_eq, Bool.not_eq_true',
        beq_eq_false_iff_ne, ne_eq] at hcond'
      refine ⟨(Bool.and_eq_true _ _ |>.mp hg).1, (Bool.and_eq_true _ _ |>.mp hg).2,
        hd.1.symm, e, hmem, hcond, hd.2.symm, hcond'.1, ?_⟩
      exact hd.2 ▸ hcond'.2
  · simp [decideOne, hg] at hd

/-! ## Stability of a single patch -/

theorem updateRecords_of_stableFor (n h : JVal) (l : List Rec)
    (hs : stableFor n h l = true) : updateRecords n h l = l := by
  induction l with
  | nil => rfl
  | cons r rest ih =>
    cases hp : patchable n r with
    | true =>
      simp only [stableFor, hp, if_true] at hs
      have hl : lookupK "sha" r = some h := by simpa using hs
      simp [updateRecords, hp, dictSet_of_lookupK_eq r "sha" h hl]
    | false =>
      simp only [stableFor, hp, if_false] at hs
      simp [updateRecords, hp, ih hs]

theorem stableFor_of_updateRecords (n h : JVal) (l : List Rec)
    (he : updateRecords n h l = l) : stableFor n h l = true := by
  induction l with
  | nil => rfl
  | cons r rest ih =>
    cases hp : patchable n r with
    | true =>
      simp [updateRecords, hp] at he
      simp [stableFor, hp, lookupK_of_dictSet_eq r "sha" h he]
    | false =>
      simp [updateRecords, hp] at he
      simp [stableFor, hp, ih he]

theorem stableFor_updateRecords_same (n h : JVal) (l : List Rec) :
    stableFor n h (updateRecords n h l) = true := by
  induction l with
  | nil => rfl
  | cons r rest ih =>
    cases hp : patchable n r with
    | true =>
      have hsha := patchable_hasKey_sha n r hp
      simp [updateRecords, hp, stableFor, patchable_dictSet_sha n r h hsha,
        lookupK_dictSet_self]
    | false => simp [updateRecords, hp, stableFor, ih]

theorem stableFor_updateRecords_ne (n h n' h' : JVal) (hne : n' ≠ n) (l : List Rec)
    (hs : stableFor n h l = true) : stableFor n h (updateRecords n' h' l) = true := by
  induction l with
  | nil => rfl
  | cons r rest ih =>
    cases hp' : patchable n' r with
    | true =>
      have hpn : patchable n r = false := by
        cases hpn : patchable n r
        · rfl
        · exfalso
          have h1 := patchable_lookupK_repo n' r hp'
          have h2 := patchable_lookupK_repo n r hpn
          rw [h1] at h2
          exact hne (Option.some.inj h2)
      have hsha := patchable_hasKey_sha n' r hp'
      simp only [stableFor, hpn, Bool.false_eq_true, if_false] at hs
      simp [updateRecords, hp', stableFor, patchable_dictSet_sha n r h' hsha, hpn, hs]
    | false =>
      cases hpn : patchable n r with
      | true =>
        simp only [stableFor, hpn, if_true] at hs
        simp [updateRecords, hp', stableFor, hpn, hs]
      | false =>
        simp only [stableFor, hpn, if_false] at hs
        simp [updateRecords, hp', stableFor, hpn, ih hs]

/-! ## Idempotence machinery -/

/-- No two manifest entries share an `image-name` (as read through `.get`,
missing keys reading as `None`) while carrying different `git-sha256`
values. -/
def ManifestUnique (m : List Rec) : Prop :=
  ∀ e1 ∈ m, ∀ e2 ∈ m,
    pyGet e1 "image-name" = pyGet e2 "image-name" →
      pyGet e1 "git-sha256" = pyGet e2 "git-sha256"

instance (m : List Rec) : Decidable (ManifestUnique m) :=
  decidable_of_iff
    (∀ e1 ∈ m, ∀ e2 ∈ m,
      pyGet e1 "image-name" = pyGet e2 "image-name" →
        pyGet e1 "git-sha256" = pyGet e2 "git-sha256")
    Iff.rfl

/-- A record whose stored `sha` already equals the `git-sha256` of some
manifest entry carrying its `repo_name` as `image-name`. -/
def patchedRec (m : List Rec) (c : Rec) : Prop :=
  ∃ n h e, lookupK "repo_name" c = some n ∧ lookupK "sha" c = some h ∧
    e ∈ m ∧ pyGet e "image-name" = n ∧ pyGet e "git-sha256" = h

theorem decideOne_val_unique (m : List Rec) (c c' : Rec) (n h h' : JVal)
    (hm : ManifestUnique m) (hd : decideOne m c = some (n, h))
    (hd' : decideOne m c' = some (n, h')) : h' = h := by
  obtain ⟨-, -, hn, e, hme, -, hh, hie, -⟩ := decideOne_some m c n h hd
  obtain ⟨-, -, hn', e', hme', -, hh', hie', -⟩ := decideOne_some m c' n h' hd'
  have : pyGet e' "image-name" = pyGet e "image-name" := by
    rw [hie, hie', ← hn, ← hn']
  rw [hh, hh']
  exact hm e' hme' e hme this

theorem decideOne_of_patchedRec (m : List Rec) (c : Rec)
    (hm : ManifestUnique m) (hp : patchedRec m c) : decideOne m c = none := by
  obtain ⟨n, h, e, hrn, hrs, hme, hie, hih⟩ := hp
  have hfind : m.find? (entryCond c) = none := by
    rw [List.find?_eq_none]
    intro x hx hcond
    simp only [entryCond, Bool.and_eq_true, beq_iff_eq, Bool.not_eq_true',
      beq_eq_false_iff_ne, ne_eq] at hcond
    have hxn : pyGet x "image-name" = n := by
      rw [hcond.1]
      simp [pyGet, hrn]
    have hxe : pyGet x "image-name" = pyGet e "image-name" := by rw [hxn, hie]
    have hx256 := hm x hx e hme hxe
    apply hcond.2
    rw [hx256, hih]
    simp [pyGet, hrs]
  simp [decideOne, hfind]

theorem runFrom_mem (m : List Rec) (d : List Rec) :
    ∀ (cs d0 : List Rec),
      (∀ x ∈ d0, x ∈ d ∨ patchedRec m x) →
      ∀ x ∈ runFrom m d0 cs, x ∈ d ∨ patchedRec m x := by
  intro cs
  induction cs with
  | nil => intro d0 h0 x hx; exact h0 x hx
  | cons c cs ih =>
    intro d0 h0 x hx
    simp only [runFrom] at hx
    refine ih (processCompB m d0 c) ?_ x hx
    intro y hy
    rw [processCompB_eq_applyDecision] at hy
    rcases hdec : decideOne m c with _ | ⟨n, h⟩
    · rw [hdec] at hy
      exact h0 y hy
    · rw [hdec] at hy
      simp only [applyDecision] at hy
      rcases mem_updateRecords n h d0 y hy with hmem | ⟨r, hr, hpr, hyr⟩
      · exact h0 y hmem
      · right
        obtain ⟨-, -, -, e, hme, -, hh, hie, -⟩ := decideOne_some m c n h hdec
        have hrn := patchable_lookupK_repo n r hpr
        have hrnk : ("repo_name" : String) ≠ "sha" := by decide
        refine ⟨n, h, e, ?_, ?_, hme, ?_, hh.symm⟩
        · rw [hyr, lookupK_dictSet_ne r "sha" "repo_name" h hrnk]
          exact hrn
        · rw [hyr, lookupK_dictSet_self]
        · obtain ⟨-, -, hn, -⟩ := decideOne_some m c n h hdec
          rw [hie, hn]

theorem stableFor_runFrom (m : List Rec) (n h : JVal)
    (hu : ∀ (c : Rec) (n' h' : JVal), decideOne m c = some (n', h') → n' = n → h' = h) :
    ∀ (cs d0 : List Rec), stableFor n h d0 = true →
      stableFor n h (runFrom m d0 cs) = true := by
  intro cs
  induction cs with
  | nil => intro d0 hs; exact hs
  | cons c cs ih =>
    intro d0 hs
    simp only [runFrom]
    refine ih (processCompB m d0 c) ?_
    rw [processCompB_eq_applyDecision]
    rcases hdec : decideOne m c with _ | ⟨n', h'⟩
    · exact hs
    · simp only [applyDecision]
      by_cases hn : n' = n
      · have hh' := hu c n' h' hdec hn
        rw [hn, hh']
        exact stableFor_updateRecords_same n h d0
      · exact stableFor_updateRecords_ne n h n' h' hn d0 hs

theorem stableFor_runFrom_of_fired (m : List Rec) (n h : JVal)
    (hu : ∀ (c : Rec) (n' h' : JVal), decideOne m c = some (n', h') → n' = n → h' = h) :
    ∀ (cs d0 : List Rec) (c : Rec), c ∈ cs → decideOne m c = some (n, h) →
      stableFor n h (runFrom m d0 cs) = true := by
  intro cs
  induction cs with
  | nil => intro d0 c hc; exact absurd hc (List.not_mem_nil c)
  | cons c' cs ih =>
    intro d0 c hc hdec
    rcases List.mem_cons.mp hc with hc | hc
    · subst hc
      simp only [runFrom]
      refine stableFor_runFrom m n h hu cs (processCompB m d0 c) ?_
      rw [processCompB_eq_applyDecision, hdec]
      simp only [applyDecision]
      exact stableFor_updateRecords_same n h d0
    · simp only [runFrom]
      exact ih (processCompB m d0 c') c hc hdec

theorem runFrom_of_noop (m : List Rec) (d : List Rec) :
    ∀ cs : List Rec, (∀ c ∈ cs, processCompB m d c = d) → runFrom m d cs = d := by
  intro cs
  induction cs with
  | nil => intro _; rfl
  | cons c cs ih =>
    intro hall
    simp only [runFrom, hall c (List.mem_cons_self c cs)]
    exact ih fun x hx => hall x (List.mem_cons_of_mem c hx)

/-- Idempotence of the bare-list pass under a duplicate-free manifest. -/
theorem runPassB_idem (d m : List Rec) (hm : ManifestUnique m) :
    runPassB (runPassB d m) m = runPassB d m := by
  set d1 := runPassB d m with hd1
  rw [runPassB]
  apply runFrom_of_noop
  intro c hc
  rw [processCompB_eq_applyDecision]
  rcases hdec : decideOne m c with _ | ⟨n, h⟩
  · rfl
  · simp only [applyDecision]
    rcases runFrom_mem m d d d (fun x hx => Or.inl hx) c hc with hcd | hpc
    · have hu : ∀ (c'' : Rec) (n'' h'' : JVal),
          decideOne m c'' = some (n'', h'') → n'' = n → h'' = h := by
        intro c'' n'' h'' hdec'' hn''
        rw [hn''] at hdec''
        exact decideOne_val_unique m c c'' n h h'' hm hdec hdec''
      have hst := stableFor_runFrom_of_fired m n h hu d d c hcd hdec
      exact updateRecords_of_stableFor n h d1 hst
    · rw [decideOne_of_patchedRec m c hm hpc] at hdec
      exact absurd hdec (by simp)

/-! ## Document-level runs: bare and wrapper cases -/

theorem manifestLoopD_bare (c : Rec) (l : List Rec) (es : List Rec) :
    manifestLoopD c (.bare l) es = some (.bare (manifestLoopB c l es)) := by
  induction es with
  | nil => rfl
  | cons e rest ih =>
    by_cases he : entryCond c e = true
    · simp [manifestLoopD, manifestLoopB, he, update_yaml_field]
    · simp [manifestLoopD, manifestLoopB, he, ih]

theorem processCompD_bare (m : List Rec) (l : List Rec) (c : Rec) :
    processCompD m (.bare l) c = some (.bare (processCompB m l c)) := by
  by_cases hg : (hasKey c "sha" && hasKey c "repo_name") = true
  · simp [processCompD, processCompB, hg, manifestLoopD_bare]
  · simp [processCompD, processCompB, hg]

theorem runComps_bare (m : List Rec) :
    ∀ (cs : List Rec) (l : List Rec),
      runComps m (.bare l) cs = some (.bare (runFrom m l cs)) := by
  intro cs
  induction cs with
  | nil => intro l; rfl
  | cons c cs ih =>
    intro l
    simp [runComps, runFrom, processCompD_bare, ih]

theorem runPass_bare (l : List Rec) (m : List Rec) :
    runPass (.bare l) m = some (.bare (runPassB l m)) := by
  simp [runPass, componentsOf, runPassB, runComps_bare]

theorem manifestLoopD_wrapper (c : Rec) (ks : List String) (comps : List Rec)
    (es : List Rec) (doc' : ConfigDoc)
    (h : manifestLoopD c (.wrapper ks comps) es = some doc') :
    doc' = .wrapper ks comps := by
  induction es with
  | nil =>
    simp only [manifestLoopD, Option.some.injEq] at h
    exact h.symm
  | cons e rest ih =>
    by_cases he : entryCond c e = true
    · simp only [manifestLoopD, he, if_true, update_yaml_field] at h
      rcases hk : updateWrapperKeys ks with _ | u
      · rw [hk] at h
        simp at h
      · rw [hk] at h
        simp only [Option.map_some', Option.some.injEq] at h
        exact h.symm
    · simp only [manifestLoopD, he, if_false] at h
      exact ih (by simpa [he] using h)

theorem processCompD_wrapper (m : List Rec) (ks : List String) (comps : List Rec)
    (c : Rec) (doc' : ConfigDoc)
    (h : processCompD m (.wrapper ks comps) c = some doc') :
    doc' = .wrapper ks comps := by
  by_cases hg : (hasKey c "sha" && hasKey c "repo_name") = true
  · simp only [processCompD, hg, if_true] at h
    exact manifestLoopD_wrapper c ks comps m doc' h
  · simp only [processCompD, hg] at h
    simp at h
    exact h.symm

theorem runComps_wrapper (m : List Rec) (ks : List String) (comps : List Rec) :
    ∀ (cs : List Rec) (doc' : ConfigDoc),
      runComps m (.wrapper ks comps) cs = some doc' → doc' = .wrapper ks comps := by
  intro cs
  induction cs with
  | nil =>
    intro doc' h
    simp only [runComps, Option.some.injEq] at h
    exact h.symm
  | cons c cs ih =>
    intro doc' h
    simp only [runComps] at h
    rcases hp : processCompD m (.wrapper ks comps) c with _ | doc''
    · rw [hp] at h
      simp at h
    · rw [hp] at h
      have := processCompD_wrapper m ks comps c doc'' hp
      rw [this] at h
      exact ih doc' h

/-! ## A pass over records with pairwise-distinct patch targets -/

/-- Two records compete for the same `update_yaml_field` patch: both carry a
`sha` key and the same present `repo_name` value. -/
def sharedPatchTarget (r1 r2 : Rec) : Bool :=
  (lookupK "repo_name" r1).isSome && (lookupK "repo_name" r1 == lookupK "repo_name" r2) &&
    hasKey r1 "sha" && hasKey r2 "sha"

/-- The effect of one component's own decision on its own record. -/
def stepOf (m : List Rec) (r : Rec) : Rec := applyDecision1 r (decideOne m r)

theorem sharedPatchTarget_of_patchable (n : JVal) (r1 r2 : Rec)
    (h1 : patchable n r1 = true) (h2 : patchable n r2 = true) :
    sharedPatchTarget r1 r2 = true := by
  have e1 := patchable_lookupK_repo n r1 h1
  have e2 := patchable_lookupK_repo n r2 h2
  have s1 := patchable_hasKey_sha n r1 h1
  have s2 := patchable_hasKey_sha n r2 h2
  simp [sharedPatchTarget, e1, e2, s1, s2]

theorem lookupK_of_hasKey (c : Rec) (k : String) (h : hasKey c k = true) :
    lookupK k c = some (pyGet c k) := by
  simp only [hasKey] at h
  rcases hl : lookupK k c with _ | v
  · rw [hl] at h
    simp at h
  · simp [pyGet, hl]

theorem patchable_self_of_decideOne (m : List Rec) (c : Rec) (n v : JVal)
    (hdec : decideOne m c = some (n, v)) : patchable n c = true := by
  obtain ⟨hs, hn, hval, -⟩ := decideOne_some m c n v hdec
  have := lookupK_of_hasKey c "repo_name" hn
  simp [patchable, this, hval, hasKey, lookupK_of_hasKey c "sha" hs]

theorem stepOf_patchable (m : List Rec) (n : JVal) (r : Rec) :
    patchable n (stepOf m r) = patchable n r := by
  rcases hdec : decideOne m r with _ | ⟨n', v⟩
  · simp [stepOf, hdec, applyDecision1]
  · obtain ⟨hs, -, -, -⟩ := decideOne_some m r n' v hdec
    simp [stepOf, hdec, applyDecision1, patchable_dictSet_sha n r v hs]

theorem runFrom_map_of_distinct (m : List Rec) (d : List Rec)
    (hd : d.Pairwise fun r1 r2 => sharedPatchTarget r1 r2 = false) :
    ∀ (suf pre : List Rec), d = pre ++ suf →
      runFrom m (pre.map (stepOf m) ++ suf) suf = (pre ++ suf).map (stepOf m) := by
  intro suf
  induction suf with
  | nil => intro pre hsplit; simp [runFrom]
  | cons c suf ih =>
    intro pre hsplit
    simp only [runFrom]
    have hstep : processCompB m (pre.map (stepOf m) ++ c :: suf) c =
        (pre ++ [c]).map (stepOf m) ++ suf := by
      rw [processCompB_eq_applyDecision]
      rcases hdec : decideOne m c with _ | ⟨n, v⟩
      · simp only [applyDecision]
        simp [stepOf, hdec, applyDecision1]
      · simp only [applyDecision]
        have hcpat : patchable n c = true := patchable_self_of_decideOne m c n v hdec
        have hpre : ∀ x ∈ pre.map (stepOf m), patchable n x = false := by
          intro x hx
          rcases List.mem_map.mp hx with ⟨r, hr, hxr⟩
          rw [← hxr, stepOf_patchable]
          cases hpr : patchable n r
          · rfl
          · exfalso
            have hrel : sharedPatchTarget r c = false := by
              have hp := hsplit ▸ hd
              rw [List.pairwise_append] at hp
              exact hp.2.2 r hr c (List.mem_cons_self c suf)
            rw [sharedPatchTarget_of_patchable n r c hpr hcpat] at hrel
            simp at hrel
        rw [updateRecords_append_of_no_patchable n v (pre.map (stepOf m)) (c :: suf) hpre]
        simp only [updateRecords, hcpat, if_true]
        simp [stepOf, hdec, applyDecision1]
    rw [hstep]
    have := ih (pre ++ [c]) (by simpa using hsplit)
    simpa using this

/-! ## Concrete fixtures -/

/-- Fixture: component record pinning sha `111` for repository `a`. -/
def compA111 : Rec := [("repo_name", JVal.str "a"), ("sha", JVal.str "111")]

/-- Fixture: component record pinning sha `999` for repository `a`. -/
def compA999 : Rec := [("repo_name", JVal.str "a"), ("sha", JVal.str "999")]

/-- Fixture: component record pinning sha `222` for repository `a`. -/
def compA222 : Rec := [("repo_name", JVal.str "a"), ("sha", JVal.str "222")]

/-- Fixture: component record pinning sha `333` for repository `a`. -/
def compA333 : Rec := [("repo_name", JVal.str "a"), ("sha", JVal.str "333")]

/-- Fixture: component record for repository `a` with no `sha` field. -/
def compAnoSha : Rec := [("repo_name", JVal.str "a")]

/-- Fixture: component record pinning sha `222` for repository `b`. -/
def compB222 : Rec := [("repo_name", JVal.str "b"), ("sha", JVal.str "222")]

/-- Fixture: component record for repository `a` carrying an extra field. -/
def compA111x : Rec :=
  [("extra", JVal.str "keep"), ("repo_name", JVal.str "a"), ("sha", JVal.str "111")]

/-- Fixture: manifest entry with image-name `a` and git-sha256 `111`. -/
def entA111 : Rec := [("image-name", JVal.str "a"), ("git-sha256", JVal.str "111")]

/-- Fixture: manifest entry with image-name `a` and git-sha256 `222`. -/
def entA222 : Rec := [("image-name", JVal.str "a"), ("git-sha256", JVal.str "222")]

/-- Fixture: manifest entry with image-name `a` and git-sha256 `999`. -/
def entA999 : Rec := [("image-name", JVal.str "a"), ("git-sha256", JVal.str "999")]

/-- Fixture: manifest entry with image-name `b` and git-sha256 `222`. -/
def entB222 : Rec := [("image-name", JVal.str "b"), ("git-sha256", JVal.str "222")]

/-! ## Claim C1 -/

/-- C1 (amended): for a component record carrying both `repo_name` and `sha`,
the entry acted on is the first manifest entry whose `image-name` equals the
component's `repo_name` AND whose `git-sha256` differs from the component's
`sha` (that is, the first entry passing `entryCond`), and an update — writing
that entry's `git-sha256` — is applied exactly when such an entry exists.
The claim's original form, which matches on the name alone and updates iff
the FIRST name-matching entry's hash differs, does not hold; see the
counterexample. -/
theorem C1_update_on_first_differing_entry (m d : List Rec) (c : Rec)
    (hs : hasKey c "sha" = true) (hn : hasKey c "repo_name" = true) :
    processCompB m d c =
      match m.find? (entryCond c) with
      | some e => updateRecords (pyGet c "repo_name") (pyGet e "git-sha256") d
      | none => d := by
  rw [processCompB_eq_applyDecision]
  simp only [decideOne, hs, hn, Bool.and_self, if_true]
  cases hf : m.find? (entryCond c)
  · simp [applyDecision]
  · simp [applyDecision]

/-- C1 witness: the amended statement evaluated on a concrete component and a
two-entry manifest. -/
theorem C1_update_witness :
    hasKey compA111 "sha" = true ∧ hasKey compA111 "repo_name" = true ∧
    processCompB [entA111, entA999] [compA111] compA111 =
      match ([entA111, entA999] : List Rec).find? (entryCond compA111) with
      | some e => updateRecords (pyGet compA111 "repo_name") (pyGet e "git-sha256") [compA111]
      | none => [compA111] :=
  ⟨by decide, by decide,
    C1_update_on_first_differing_entry [entA111, entA999] [compA111] compA111
      (by decide) (by decide)⟩

/-- C1 counterexample: the manifest's FIRST entry matching the component's
name (`entA111`) carries exactly the component's pinned sha, so the claim —
"an update is applied if and only if that first matching entry's git-sha256
differs from the component's sha" — predicts no update; the code nonetheless
updates the component, and to the SECOND entry's hash `999`. -/
theorem C1_counterexample :
    pyGet entA111 "image-name" = pyGet compA111 "repo_name" ∧
    pyGet entA111 "git-sha256" = pyGet compA111 "sha" ∧
    runPassB [compA111] [entA111, entA999] = [compA999] ∧
    ([compA999] : List Rec) ≠ [compA111] := by decide

/-! ## Claim C2 -/

/-- C2 (amended): provided no two manifest entries share an `image-name`
while carrying different `git-sha256` values (`ManifestUnique`), the
configuration document written by one full reconciliation pass is a fixed
point: a second pass over it mutates nothing and terminates normally. This
holds for bare-list documents and for wrapper documents alike. Without the
uniqueness proviso the claim fails; see the counterexample. -/
theorem C2_idempotent_under_unique_manifest (doc d1 : ConfigDoc) (m : List Rec)
    (hm : ManifestUnique m) (hrun : runPass doc m = some d1) :
    runPass d1 m = some d1 := by
  cases doc with
  | bare l =>
    rw [runPass_bare] at hrun
    have hd1 : d1 = ConfigDoc.bare (runPassB l m) := (Option.some.inj hrun).symm
    subst hd1
    rw [runPass_bare, runPassB_idem l m hm]
  | wrapper ks comps =>
    have hcomp : runComps m (ConfigDoc.wrapper ks comps) comps = some d1 := hrun
    have hd1 := runComps_wrapper m ks comps comps d1 hcomp
    subst hd1
    exact hrun

/-- C2 witness: a stale component is rewritten by the first pass and the
second pass is a no-op. -/
theorem C2_idempotent_witness :
    ManifestUnique [entA999] ∧
    runPass (ConfigDoc.bare [compA111]) [entA999] = some (ConfigDoc.bare [compA999]) ∧
    runPass (ConfigDoc.bare [compA999]) [entA999] = some (ConfigDoc.bare [compA999]) :=
  ⟨by decide, by decide,
    C2_idempotent_under_unique_manifest (ConfigDoc.bare [compA111])
      (ConfigDoc.bare [compA999]) [entA999] (by decide) (by decide)⟩

/-- C2 counterexample: with two manifest entries for image-name `a` carrying
hashes `111` and `999`, the first pass rewrites the component's sha from
`111` to `999`, and the second pass — against the unchanged manifest —
mutates it again, back to `111`: the second run is not a no-op, refuting the
claim as stated for arbitrary manifests. -/
theorem C2_counterexample :
    runPass (ConfigDoc.bare [compA111]) [entA111, entA999] =
      some (ConfigDoc.bare [compA999]) ∧
    runPass (ConfigDoc.bare [compA999]) [entA111, entA999] =
      some (ConfigDoc.bare [compA111]) ∧
    some (ConfigDoc.bare [compA111]) ≠ some (ConfigDoc.bare [compA999]) := by decide

/-! ## Claim C3 -/

/-- C3 (code bug, failing input): on the wrapper document
`{"components": [{"repo_name": "a", "sha": "111"}]}` with manifest entry
`{"image-name": "a", "git-sha256": "999"}`, `main` detects the mismatch and
calls `update_yaml_field`, but that function iterates over the re-loaded
document's top-level KEYS (the string `"components"`), never over the
records beneath the `components` key, so the document is written back
unchanged and the update is silently lost; the identical bare-list document
is updated to sha `999`. -/
theorem C3_wrapper_update_dropped :
    runPass (ConfigDoc.wrapper ["components"] [compA111]) [entA999] =
      some (ConfigDoc.wrapper ["components"] [compA111]) ∧
    runPass (ConfigDoc.bare [compA111]) [entA999] =
      some (ConfigDoc.bare [compA999]) := by decide

/-! ## Claim C4 -/

/-- C4 (confirmed): when `update_yaml_field` patches the record `r` — the
first record passing its guard, with the unmatched records `pre` before it
and `post` after it — the written document keeps `pre` and `post` verbatim
and in their original positions, and the patched record keeps its exact key
sequence (no field added or removed) and the values of every field other
than `sha`. -/
theorem C4_patch_frame (n v : JVal) (pre post : List Rec) (r : Rec)
    (hpre : ∀ r' ∈ pre, patchable n r' = false) (hr : patchable n r = true) :
    updateRecords n v (pre ++ r :: post) = pre ++ dictSet r "sha" v :: post ∧
    (dictSet r "sha" v).map Prod.fst = r.map Prod.fst ∧
    ∀ k : String, k ≠ "sha" → lookupK k (dictSet r "sha" v) = lookupK k r := by
  refine ⟨?_, dictSet_keys_of_hasKey r "sha" v (patchable_hasKey_sha n r hr),
    fun k hk => lookupK_dictSet_ne r "sha" k v hk⟩
  rw [updateRecords_append_of_no_patchable n v pre (r :: post) hpre]
  simp [updateRecords, hr]

/-- C4 witness: a patch on a three-record document rewrites only the middle
record's `sha`, keeping the surrounding records and the extra field. -/
theorem C4_patch_frame_witness :
    patchable (JVal.str "a") compB222 = false ∧
    patchable (JVal.str "a") compA111x = true ∧
    updateRecords (JVal.str "a") (JVal.str "999") ([compB222] ++ compA111x :: [compA333]) =
      [compB222] ++ dictSet compA111x "sha" (JVal.str "999") :: [compA333] :=
  ⟨by decide, by decide,
    (C4_patch_frame (JVal.str "a") (JVal.str "999") [compB222] [compA333] compA111x
      (by decide) (by decide)).1⟩

/-- Pointwise shape preservation of the `update_yaml_field` loop: every
output record keeps the input record's `sha`-key presence and stored
repo_name. -/
theorem updateRecords_forall2 (n v : JVal) (l : List Rec) :
    List.Forall₂
      (fun a b => hasKey a "sha" = hasKey b "sha" ∧
        lookupK "repo_name" a = lookupK "repo_name" b) l (updateRecords n v l) := by
  induction l with
  | nil => exact List.Forall₂.nil
  | cons r rest ih =>
    cases hp : patchable n r with
    | true =>
      have hs := patchable_hasKey_sha n r hp
      have hrn : ("repo_name" : String) ≠ "sha" := by decide
      have hred : updateRecords n v (r :: rest) = dictSet r "sha" v :: rest := by
        simp [updateRecords, hp]
      rw [hred]
      refine List.Forall₂.cons ⟨?_, ?_⟩ ?_
      · rw [hs, hasKey_dictSet_sha]
      · exact (lookupK_dictSet_ne r "sha" "repo_name" v hrn).symm
      · exact List.forall₂_same.mpr fun x _ => ⟨rfl, rfl⟩
    | false =>
      have hred : updateRecords n v (r :: rest) = r :: updateRecords n v rest := by
        simp [updateRecords, hp]
      rw [hred]
      exact List.Forall₂.cons ⟨rfl, rfl⟩ ih

/-! ## Claim C5 -/

/-- C5 (amended): when no two records of the configuration compete for the
same patch target — no two records both carry a `sha` key and the same
present `repo_name` value — each record of the document is mutated at most
once per pass, by the single decision computed from that record itself: the
final document is the pointwise image of the initial one under `stepOf`,
which patches a record exactly when a manifest entry with matching name and
a differing hash exists for it, and leaves it identical otherwise. The clause
"including ones where several records share the same repo_name" of the
original claim fails; see the counterexample. -/
theorem C5_each_record_patched_at_most_once (d m : List Rec)
    (hd : d.Pairwise fun r1 r2 => sharedPatchTarget r1 r2 = false) :
    runPassB d m = d.map (stepOf m) := by
  have h := runFrom_map_of_distinct m d hd d [] rfl
  simpa [runPassB] using h

/-- C5 witness: two records with distinct names, one stale and one current;
the pass patches exactly the stale one, in place. -/
theorem C5_each_record_witness :
    ([compA111, compB222] : List Rec).Pairwise
      (fun r1 r2 => sharedPatchTarget r1 r2 = false) ∧
    runPassB [compA111, compB222] [entA999, entB222] =
      ([compA111, compB222] : List Rec).map (stepOf [entA999, entB222]) :=
  ⟨by decide,
    C5_each_record_patched_at_most_once [compA111, compB222] [entA999, entB222] (by decide)⟩

/-- C5 counterexample: two records share repo_name `a` (shas `111` and
`333`) against a manifest with entries `111` and `222` for `a`. Processing
the first component rewrites record 0 from `111` to `222`; processing the
second component targets record 0 AGAIN (update_yaml_field always patches
the first sha-bearing record with that name) and rewrites it back to `111`.
Record 0 is thus mutated twice in one pass, and record 1 — the component
whose mismatch triggered the second write — is never touched, refuting both
the at-most-once clause and its extension to duplicate repo_names. -/
theorem C5_counterexample :
    processCompB [entA111, entA222] [compA111, compA333] compA111 =
      [compA222, compA333] ∧
    processCompB [entA111, entA222] [compA222, compA333] compA333 =
      [compA111, compA333] ∧
    runPassB [compA111, compA333] [entA111, entA222] = [compA111, compA333] ∧
    (compA222 ≠ compA111 ∧ compA111 ≠ compA222 ∧ compA333 = compA333) := by decide

/-! ## Claim C6 -/

/-- C6 (amended): the reconciler skips a record — leaving the on-disk
document untouched, with no matching attempted — whenever the record lacks
at least one of the two fields `repo_name` and `sha`; only records carrying
both are evaluated against the manifest. The original claim, that only
records lacking BOTH fields are skipped, fails; see the counterexample. -/
theorem C6_skip_when_either_field_missing (m d : List Rec) (c : Rec)
    (h : hasKey c "sha" = false ∨ hasKey c "repo_name" = false) :
    processCompB m d c = d := by
  rcases h with h | h <;> simp [processCompB, h]

/-- C6 witness: a record with a repo_name but no sha is skipped while a
stale patchable record sits in the document. -/
theorem C6_skip_witness :
    (hasKey compAnoSha "sha" = false ∨ hasKey compAnoSha "repo_name" = false) ∧
    processCompB [entA999] [compA111] compAnoSha = [compA111] :=
  ⟨Or.inl (by decide),
    C6_skip_when_either_field_missing [entA999] [compA111] compAnoSha (Or.inl (by decide))⟩

/-- C6 counterexample: the record `{"repo_name": "a"}` carries one of the
two fields, so by the claim it would still be evaluated — and the
spec-modelled evaluation (`processCompClaimed`, which skips only when both
fields are missing) would patch the document's stale `a` record to `999`
(`.get("sha")` reading as `None ≠ "999"`). The code's guard
`"sha" in repo and "repo_name" in repo` skips it instead, leaving the
document untouched. -/
theorem C6_counterexample :
    hasKey compAnoSha "repo_name" = true ∧
    processCompB [entA999] [compA111] compAnoSha = [compA111] ∧
    processCompClaimed [entA999] [compA111] compAnoSha = [compA999] ∧
    ([compA999] : List Rec) ≠ [compA111] := by decide

/-! ## Claim C7 -/

/-- C7 (amended): when no record of a BARE-LIST document stores the given
repo_name value, `update_yaml_field` finds nothing to patch: the document is
written back unchanged — same records, same fields, same order — and no
exception is raised (the result is `some`, never the exception marker). The
original claim, ranging over every document, fails on wrapper documents; see
the counterexample. -/
theorem C7_no_match_writes_back_unchanged (l : List Rec) (n v : JVal)
    (h : ∀ r ∈ l, lookupK "repo_name" r ≠ some n) :
    update_yaml_field (.bare l) n v = some (.bare l) := by
  have hall : ∀ r ∈ l, patchable n r = false := by
    intro r hr
    have hb : (lookupK "repo_name" r == some n) = false :=
      beq_eq_false_iff_ne.mpr (h r hr)
    simp [patchable, hb]
  simp [update_yaml_field, updateRecords_of_no_patchable n v l hall]

/-- C7 witness: asking to patch repository `a` in a document that only
tracks repository `b` is a no-op with a normal result. -/
theorem C7_no_match_witness :
    lookupK "repo_name" compB222 ≠ some (JVal.str "a") ∧
    update_yaml_field (ConfigDoc.bare [compB222]) (JVal.str "a") (JVal.str "999") =
      some (ConfigDoc.bare [compB222]) :=
  ⟨by decide,
    C7_no_match_writes_back_unchanged [compB222] (JVal.str "a") (JVal.str "999") (by decide)⟩

/-- C7 counterexample: on the wrapper document whose only top-level key is
`"repo_names"` — a document containing no records at all, hence trivially no
record whose identifying field equals the match key — `update_yaml_field`
raises instead of writing the document back unchanged: the loop iterates the
KEY string `"repo_names"`, Python's `"repo_name" in entry` substring test
succeeds, and the subsequent `entry["repo_name"]` raises `TypeError`
(modelled as `none`, the uncaught-exception marker), refuting the claim's
"written back unchanged and no error is raised" for arbitrary documents. -/
theorem C7_counterexample :
    pyIn "repo_name" "repo_names" = true ∧
    update_yaml_field (ConfigDoc.wrapper ["repo_names"] []) (JVal.str "a") (JVal.str "999") =
      none := by decide

/-! ## Claim C8 -/

/-- C8 (confirmed): the staleness decision of every component is a function
of the component record (as loaded once at run start) and the fetched
manifest alone — `decideOne` reads neither the on-disk document nor earlier
decisions — and the whole pass equals folding that precomputed decision list
(`decisionsOf`, computed from the initial component list) over the on-disk
document. A sha patch written for an earlier component therefore never
alters a later component's comparison within the same pass. -/
theorem C8_decisions_from_initial_load (d m : List Rec) :
    runPassB d m = applyDecisions d (decisionsOf d m) := by
  rw [runPassB, runFrom_eq_applyDecisions]
  rfl

/-! ## Claim C9 -/

/-- C9 (confirmed): `update_yaml_field` only ever rewrites a record that
already contains a `sha` key: either no record passes the guard and the
document is unchanged, or the document splits as `pre ++ r :: post` where
`r` is the FIRST record with the matching stored repo_name AND a `sha` key,
`pre` (which may contain name-matching records lacking `sha`) is kept
verbatim and `r` alone is patched. Moreover every record of the output has
the same `sha`-key presence and the same stored repo_name as the input
record at its position: a name-matching record lacking `sha` is passed over
without ever gaining one, and the update lands on a later record with that
name or on none at all. -/
theorem C9_update_targets_only_sha_bearing_records (n v : JVal) (l : List Rec) :
    ((updateRecords n v l = l ∧ ∀ r ∈ l, patchable n r = false) ∨
      ∃ pre r post, l = pre ++ r :: post ∧
        (∀ r' ∈ pre, patchable n r' = false) ∧ patchable n r = true ∧
        updateRecords n v l = pre ++ dictSet r "sha" v :: post) ∧
    List.Forall₂
      (fun a b => hasKey a "sha" = hasKey b "sha" ∧
        lookupK "repo_name" a = lookupK "repo_name" b) l (updateRecords n v l) :=
  ⟨updateRecords_split n v l, updateRecords_forall2 n v l⟩

/-! ## Claim C10 -/

/-- C10 (confirmed): `fetch_latest_manifest` is a total function: over the
abstract file system it returns exactly the path `dir_path/manifest.json`
when that file exists and `None` otherwise — including when the directory
itself does not exist, since then no such path exists — and the fetch stage
of `main` turns the `None` result into termination with exit code 1 and a
`some` result into normal continuation with that path. -/
theorem C10_fetch_manifest_total (fs : List String) (dir : String) :
    fetch_latest_manifest fs dir =
      (if fs.contains (dir ++ "/manifest.json") = true then some (dir ++ "/manifest.json")
       else none) ∧
    mainFetchStage fs dir =
      (if fs.contains (dir ++ "/manifest.json") = true then
        Except.ok (dir ++ "/manifest.json")
       else Except.error 1) := by
  by_cases h : (dir ++ "/manifest.json") ∈ fs
  · have hc : fs.contains (dir ++ "/manifest.json") = true := by simpa using h
    simp [fetch_latest_manifest, globLiteral, mainFetchStage, h, hc]
  · have hc : fs.contains (dir ++ "/manifest.json") = false := by simpa using h
    simp [fetch_latest_manifest, globLiteral, mainFetchStage, h, hc]
